import Mathlib

/-!
Shallow embedding of the CodeEditor component
(src/admin/src/components/CodeEditor/CodeEditor.tsx) of the
strapi-code-editor-custom-field plugin, together with proofs of the
behavioural properties stated in the specification.

The value codec of the component is driven by the JavaScript regular
expression built from the pattern: two underscores, a greedy nonempty
group of non-line-terminator characters, two underscores and a
semicolon.  It is used unanchored through String.match and
String.replace.  The embedding below models exactly this
leftmost-greedy matching discipline on lists of characters.
-/

namespace CodeEditor

/-- JavaScript line terminators, which the regex metacharacter dot does
not match: LF, CR, LINE SEPARATOR, PARAGRAPH SEPARATOR. -/
def isLineTerm (c : Char) : Bool :=
  c.toNat == 10 || c.toNat == 13 || c.toNat == 0x2028 || c.toNat == 0x2029

/-- Characters the regex dot accepts. -/
def notLineTerm (c : Char) : Bool := !isLineTerm c

/-- The literal tail of the pattern: two underscores and a semicolon. -/
def markerEnd : List Char := ['_', '_', ';']

/-- Does `xs` start with the pattern `p`? -/
def beginsWith : List Char → List Char → Bool
  | [], _ => true
  | _ :: _, [] => false
  | p :: ps, c :: cs => p == c && beginsWith ps cs

/-- Does `xs` contain `pat` as a contiguous run anywhere? -/
def containsSeq (pat : List Char) : List Char → Bool
  | [] => beginsWith pat []
  | c :: cs => beginsWith pat (c :: cs) || containsSeq pat cs

/-- At a candidate match position, a group of length `k` is acceptable
when its characters are all non-line-terminators (regex dot) and the
literal tail of the pattern follows. -/
def groupOk (t : List Char) (k : Nat) : Bool :=
  (t.take k).all notLineTerm && beginsWith markerEnd (t.drop k)

/-- Backtracking search for the greedy group: try the longest group
first, shrinking until the literal tail fits; the group of a JavaScript
greedy plus is nonempty, so length zero is a failure. -/
def tryK (t : List Char) : Nat → Option (List Char × List Char)
  | 0 => none
  | k + 1 =>
    if groupOk t (k + 1) then some (t.take (k + 1), t.drop (k + 1 + 3))
    else tryK t k

/-- Greedy group at the current position: longest acceptable group. -/
def greedyGroup (t : List Char) : Option (List Char × List Char) :=
  tryK t t.length

/-- Attempt to match the pattern at the head of the string: two literal
underscores, then the greedy group and the literal tail. -/
def headMatch : List Char → Option (List Char × List Char)
  | c1 :: c2 :: t => if c1 == '_' && c2 == '_' then greedyGroup t else none
  | _ => none

/-- Unanchored leftmost match of the pattern, returning the text before
the match, the captured group, and the text after the match. -/
def findMatch : List Char → Option (List Char × List Char × List Char)
  | [] => none
  | c :: cs =>
    match headMatch (c :: cs) with
    | some (g, post) => some ([], g, post)
    | none =>
      match findMatch cs with
      | some (pre, g, post) => some (c :: pre, g, post)
      | none => none

/-! ### Matching lemmas -/

lemma beginsWith_self_append (p r : List Char) : beginsWith p (p ++ r) = true := by
  induction p with
  | nil => rfl
  | cons a p ih => simp [beginsWith, ih]

lemma beginsWith_eq_append (p xs : List Char) (h : beginsWith p xs = true) :
    xs = p ++ xs.drop p.length := by
  induction p generalizing xs with
  | nil => simp
  | cons a p ih =>
    cases xs with
    | nil => simp [beginsWith] at h
    | cons x xs' =>
      simp only [beginsWith, Bool.and_eq_true, beq_iff_eq] at h
      obtain ⟨rfl, h2⟩ := h
      simpa [List.drop] using congrArg (a :: ·) (ih xs' h2)

lemma containsSeq_of_beginsWith_drop (pat xs : List Char) (n : Nat)
    (h : beginsWith pat (xs.drop n) = true) : containsSeq pat xs = true := by
  induction xs generalizing n with
  | nil => simpa [containsSeq, List.drop_nil] using h
  | cons x xs' ih =>
    cases n with
    | zero => simp only [containsSeq, Bool.or_eq_true]; exact Or.inl (by simpa using h)
    | succ n => simp [containsSeq, ih n (by simpa using h)]

lemma tryK_some (t : List Char) (K : Nat) (g post : List Char)
    (h : tryK t K = some (g, post)) :
    ∃ k, 1 ≤ k ∧ groupOk t k = true ∧ g = t.take k ∧ post = t.drop (k + 3) := by
  induction K with
  | zero => simp [tryK] at h
  | succ k ih =>
    by_cases hg : groupOk t (k + 1) = true
    · rw [tryK, if_pos hg] at h
      simp only [Option.some.injEq, Prod.mk.injEq] at h
      exact ⟨k + 1, by omega, hg, h.1.symm, h.2.symm⟩
    · rw [tryK, if_neg hg] at h
      exact ih h

lemma drop_append_plus (a b : List Char) (n : Nat) :
    (a ++ b).drop (a.length + n) = b.drop n := by
  induction a with
  | nil => simp
  | cons x a' ih =>
    simp [List.length_cons, Nat.succ_add, ih]

lemma groupOk_marker (t : List Char) (k : Nat) (h : groupOk t k = true) :
    t = t.take k ++ (markerEnd ++ t.drop (k + 3)) ∧
      (t.take k).all notLineTerm = true := by
  simp only [groupOk, Bool.and_eq_true] at h
  obtain ⟨h1, h2⟩ := h
  refine ⟨?_, h1⟩
  have hdk : t.drop k = markerEnd ++ (t.drop k).drop markerEnd.length :=
    beginsWith_eq_append markerEnd (t.drop k) h2
  have hdd : (t.drop k).drop markerEnd.length = t.drop (k + 3) := by
    rw [List.drop_drop]
    norm_num [markerEnd]
  conv_lhs => rw [← List.take_append_drop k t]
  rw [hdk, hdd]

lemma take_ne_nil_of_groupOk (t : List Char) (k : Nat)
    (hk : 1 ≤ k) (h : groupOk t k = true) : t.take k ≠ [] := by
  simp only [groupOk, Bool.and_eq_true] at h
  intro hnil
  rcases List.take_eq_nil_iff.mp hnil with h0 | h0
  · omega
  · subst h0
    simp [beginsWith, markerEnd] at h

lemma headMatch_sound (s g post : List Char) (h : headMatch s = some (g, post)) :
    s = '_' :: '_' :: (g ++ (markerEnd ++ post)) ∧ g ≠ [] ∧
      g.all notLineTerm = true := by
  match s with
  | [] => simp [headMatch] at h
  | [c] => simp [headMatch] at h
  | c1 :: c2 :: t =>
    rw [headMatch] at h
    by_cases hc : (c1 == '_' && c2 == '_') = true
    · rw [if_pos hc] at h
      simp only [Bool.and_eq_true, beq_iff_eq] at hc
      obtain ⟨rfl, rfl⟩ := hc
      obtain ⟨k, hk1, hkok, rfl, rfl⟩ := tryK_some t t.length _ _ h
      obtain ⟨hsplit, hall⟩ := groupOk_marker t k hkok
      exact ⟨by rw [← hsplit], take_ne_nil_of_groupOk t k hk1 hkok, hall⟩
    · rw [if_neg hc] at h
      exact absurd h (by simp)

lemma findMatch_sound (cs : List Char) :
    ∀ pre g post, findMatch cs = some (pre, g, post) →
      cs = pre ++ ('_' :: '_' :: (g ++ (markerEnd ++ post))) ∧ g ≠ [] ∧
        g.all notLineTerm = true := by
  induction cs with
  | nil => intro pre g post h; simp [findMatch] at h
  | cons c cs' ih =>
    intro pre g post h
    rw [findMatch] at h
    cases hh : headMatch (c :: cs') with
    | some gp =>
      obtain ⟨g0, post0⟩ := gp
      rw [hh] at h
      simp only [Option.some.injEq, Prod.mk.injEq] at h
      obtain ⟨rfl, rfl, rfl⟩ := h
      obtain ⟨hsplit, hne, hall⟩ := headMatch_sound _ _ _ hh
      exact ⟨by simpa using hsplit, hne, hall⟩
    | none =>
      rw [hh] at h
      cases hf : findMatch cs' with
      | some pgp =>
        obtain ⟨pre0, g0, post0⟩ := pgp
        rw [hf] at h
        simp only [Option.some.injEq, Prod.mk.injEq] at h
        obtain ⟨rfl, rfl, rfl⟩ := h
        obtain ⟨hsplit, hne, hall⟩ := ih pre0 g0 post0 hf
        exact ⟨by rw [List.cons_append, ← hsplit], hne, hall⟩
      | none => rw [hf] at h; exact absurd h (by simp)

lemma findMatch_of_not_contains (cs : List Char)
    (h : containsSeq markerEnd cs = false) : findMatch cs = none := by
  cases hf : findMatch cs with
  | none => rfl
  | some pgp =>
    obtain ⟨pre, g, post⟩ := pgp
    obtain ⟨hsplit, -, -⟩ := findMatch_sound cs pre g post hf
    exfalso
    have hbw : beginsWith markerEnd (cs.drop (pre.length + (2 + g.length))) = true := by
      rw [hsplit, drop_append_plus]
      have : ('_' :: '_' :: (g ++ (markerEnd ++ post))).drop (2 + g.length)
          = markerEnd ++ post := by
        rw [show (2 + g.length) = g.length + 2 by omega]
        show ('_' :: '_' :: (g ++ (markerEnd ++ post))).drop (g.length + 1 + 1)
          = markerEnd ++ post
        rw [List.drop_succ_cons, List.drop_succ_cons]
        simp [drop_append_plus g (markerEnd ++ post) 0]
      rw [this]
      exact beginsWith_self_append markerEnd post
    rw [containsSeq_of_beginsWith_drop markerEnd cs _ hbw] at h
    exact Bool.true_eq_false.mp h

lemma tryK_greedy (t : List Char) (k0 K : Nat)
    (h1 : 1 ≤ k0) (h2 : groupOk t k0 = true)
    (h3 : ∀ j, k0 < j → groupOk t j = false) (hK : k0 ≤ K) :
    tryK t K = some (t.take k0, t.drop (k0 + 3)) := by
  induction K with
  | zero => omega
  | succ k ih =>
    by_cases he : k0 = k + 1
    · subst he
      rw [tryK, if_pos h2]
    · have hg : groupOk t (k + 1) = false := h3 (k + 1) (by omega)
      rw [tryK, if_neg (by simp [hg])]
      exact ih (by omega)

lemma findMatch_encoded (l c : List Char)
    (hne : l ≠ []) (hnl : l.all notLineTerm = true)
    (hc : containsSeq markerEnd c = false) :
    findMatch ('_' :: '_' :: (l ++ (markerEnd ++ c))) = some ([], l, c) := by
  have h1 : 1 ≤ l.length := by
    cases l with
    | nil => exact absurd rfl hne
    | cons a l' => simp
  have hgreedy : greedyGroup (l ++ (markerEnd ++ c)) = some (l, c) := by
    unfold greedyGroup
    have h2 : groupOk (l ++ (markerEnd ++ c)) l.length = true := by
      unfold groupOk
      rw [List.take_left, show l.length = l.length + 0 by omega, drop_append_plus]
      simp [hnl, beginsWith_self_append]
    have h3 : ∀ j, l.length < j → groupOk (l ++ (markerEnd ++ c)) j = false := by
      intro j hj
      obtain ⟨m, rfl⟩ : ∃ m, j = l.length + (m + 1) := ⟨j - l.length - 1, by omega⟩
      unfold groupOk
      rw [drop_append_plus]
      match m with
      | 0 =>
        have hb : beginsWith markerEnd ((markerEnd ++ c).drop (0 + 1)) = false := rfl
        rw [hb, Bool.and_false]
      | 1 =>
        have hb : beginsWith markerEnd ((markerEnd ++ c).drop (1 + 1)) = false := rfl
        rw [hb, Bool.and_false]
      | n + 2 =>
        have hdc : (markerEnd ++ c).drop (n + 3) = c.drop n := by
          rw [show n + 3 = markerEnd.length + n by simp [markerEnd]; omega]
          exact drop_append_plus markerEnd c n
        rw [hdc]
        cases hb : beginsWith markerEnd (c.drop n) with
        | false => exact Bool.and_false _
        | true =>
          rw [containsSeq_of_beginsWith_drop markerEnd c n hb] at hc
          exact absurd hc (by simp)
    have hlen : l.length ≤ (l ++ (markerEnd ++ c)).length := by
      rw [List.length_append]; omega
    rw [tryK_greedy _ l.length _ h1 h2 h3 hlen]
    · rw [List.take_left, show l.length + 3 = l.length + (0 + 3) by omega]
      rw [drop_append_plus]
      rfl
  rw [findMatch]
  have hh : headMatch ('_' :: '_' :: (l ++ (markerEnd ++ c)))
      = some (l, c) := by
    rw [headMatch, if_pos (by simp), hgreedy]
  rw [hh]

/-! ### The component: data model and value codec -/

/-- The enumerated language set offered by the selector
(CodeEditor.tsx lines 14-35). -/
def languages : List String :=
  ["css", "dockerfile", "graphql", "html", "javascript", "json", "kotlin",
   "markdown", "mysql", "php", "plaintext", "powerquery", "powershell",
   "python", "scss", "shell", "sql", "typescript", "xml", "yaml"]

/-- The optional field options of the attribute prop. -/
structure FieldOptions where
  language : Option String
  defaultValue : Option String
deriving DecidableEq

/-- The attribute prop received from the host form. -/
structure Attribute where
  customField : String
  options : Option FieldOptions
deriving DecidableEq

/-- JavaScript truthiness of a value of type null-or-string or of an
optional string property: null, undefined and the empty string are
falsy. -/
def truthy : Option String → Bool
  | none => false
  | some s => !(s == "")

/-- JavaScript String.endsWith, as a suffix test on characters. -/
def jsEndsWith (s suffix : String) : Bool :=
  beginsWith suffix.data.reverse s.data.reverse

/-- JSON mode (line 101): the custom field name ends in
code-editor-json. -/
def isJson (a : Attribute) : Bool :=
  jsEndsWith a.customField "code-editor-json"

/-- Optional chaining attribute-options-language (line 102). -/
def languageFromOptions (a : Attribute) : Option String :=
  a.options.bind (fun o => o.language)

/-- Line 110: the configured default value, with a falsy value
normalised to undefined by the or-undefined idiom. -/
def defaultValueOpt (a : Attribute) : Option String :=
  let d := a.options.bind (fun o => o.defaultValue)
  if truthy d then d else none

/-- Lines 104-109: the language captured from the stored value by the
regex, when the value is truthy and the regex matches. -/
def languageFromValue : Option String → Option String
  | none => none
  | some s =>
    if s = "" then none
    else Option.map (fun r => String.mk r.2.1) (findMatch s.data)

/-- JavaScript String.replace with the (non-global) regex and an empty
replacement: remove the first match, keep everything else. -/
def removeFirstMatch (s : String) : String :=
  match findMatch s.data with
  | some (pre, _, post) => String.mk (pre ++ post)
  | none => s

/-- Line 111 before default substitution: the stored value stripped of
the first marker match, or the empty string for a falsy value. -/
def contentFromValue : Option String → String
  | none => ""
  | some s => if s = "" then "" else removeFirstMatch s

/-- The decode side of the value codec: extracted language and
extracted content of a stored value. -/
def decodePair (value : Option String) : Option String × String :=
  (languageFromValue value, contentFromValue value)

/-- JavaScript logical-or on an optional string against a string
fallback (empty string is falsy). -/
def jsOrString : Option String → String → String
  | none, b => b
  | some s, b => if s = "" then b else s

/-- Line 118: initial language state, resolved by the or-chain of the
configured language, the language decoded from the value, and the
default language (json in JSON mode, otherwise javascript). -/
def initLanguage (a : Attribute) (value : Option String) : String :=
  jsOrString (languageFromOptions a)
    (jsOrString (languageFromValue value)
      (if isJson a then "json" else "javascript"))

/-- Lines 159-163: the editor change handler.  Given the current
attribute, the current language state and the text reported by the
editor widget (undefined is normalised to the empty string), it returns
the new editorValue state together with the value pushed onto the
debounced subject: the raw content in JSON mode or under a configured
language, and the content prefixed by the language marker otherwise. -/
def handleChange (a : Attribute) (language : String) (value : Option String) :
    String × String :=
  let valueToSet := match value with
    | none => ""
    | some s => if s = "" then "" else s
  (valueToSet,
    if isJson a || truthy (languageFromOptions a) then valueToSet
    else "__" ++ language ++ "__;" ++ valueToSet)

/-! ### Codec lemmas at the string level -/

lemma string_data_append (a b : String) : (a ++ b).data = a.data ++ b.data := rfl

lemma encoded_data (l c : String) :
    ("__" ++ l ++ "__;" ++ c).data
      = '_' :: '_' :: (l.data ++ (markerEnd ++ c.data)) := by
  simp [string_data_append, markerEnd]

lemma mk_data (s : String) : String.mk s.data = s := rfl

lemma data_nil_iff (s : String) : s.data = [] ↔ s = "" := by
  constructor
  · intro h
    cases s with
    | mk d =>
      have hd : d = [] := h
      subst hd; rfl
  · intro h; rw [h]

lemma decodePair_encoded (l c : String)
    (hne : l.data ≠ []) (hnl : l.data.all notLineTerm = true)
    (hc : containsSeq markerEnd c.data = false) :
    decodePair (some ("__" ++ l ++ "__;" ++ c)) = (some l, c) := by
  have hfm : findMatch ("__" ++ l ++ "__;" ++ c).data = some ([], l.data, c.data) := by
    rw [encoded_data]
    exact findMatch_encoded l.data c.data hne hnl hc
  have hnz : ("__" ++ l ++ "__;" ++ c) ≠ "" := by
    intro h
    have := congrArg String.data h
    rw [encoded_data] at this
    simp at this
  simp only [decodePair, languageFromValue, contentFromValue, removeFirstMatch,
    if_neg hnz, hfm]
  simp [mk_data]

lemma decodePair_plain (c : String)
    (hc : containsSeq markerEnd c.data = false) :
    decodePair (some c) = (none, c) := by
  by_cases h : c = ""
  · subst h; rfl
  · have hfm := findMatch_of_not_contains c.data hc
    simp only [decodePair, languageFromValue, contentFromValue, removeFirstMatch,
      if_neg h, hfm]
    rfl

lemma languageFromValue_ne_empty (value : Option String) (l : String)
    (h : languageFromValue value = some l) : l ≠ "" := by
  match value with
  | none => simp [languageFromValue] at h
  | some s =>
    simp only [languageFromValue] at h
    by_cases hs : s = ""
    · rw [if_pos hs] at h; simp at h
    · rw [if_neg hs] at h
      cases hf : findMatch s.data with
      | none => rw [hf] at h; simp at h
      | some pgp =>
        obtain ⟨pre, g, post⟩ := pgp
        rw [hf] at h
        simp only [Option.map] at h
        simp only [Option.some.injEq] at h
        obtain ⟨-, hne, -⟩ := findMatch_sound s.data pre g post hf
        intro hl
        rw [← h] at hl
        exact hne ((data_nil_iff (String.mk g)).mpr hl)

lemma languages_props :
    ∀ l ∈ languages, l.data ≠ [] ∧ l.data.all notLineTerm = true := by decide

/-! ### Component-local state and the presentation shell -/

/-- The component-local state variables (lines 118-122). -/
structure EditorState where
  language : String
  editorValue : String
  fullScreen : Bool
  prevValue : Option String
deriving DecidableEq

/-- Line 202: the expand button flips the fullScreen flag and touches
nothing else. -/
def toggleFullScreen (s : EditorState) : EditorState :=
  { s with fullScreen := !s.fullScreen }

/-- The two layout containers of the shell. -/
inductive LayoutDiv where
  | fullScreenDiv
  | normalDiv
deriving DecidableEq

/-- Line 165: the container chosen from the fullScreen flag. -/
def styledDiv (s : EditorState) : LayoutDiv :=
  if s.fullScreen then LayoutDiv.fullScreenDiv else LayoutDiv.normalDiv

/-- Line 221: the editor height chosen from the fullScreen flag. -/
def editorHeight (s : EditorState) : String :=
  if s.fullScreen then "80vh" else "30vh"

/-! ### Runtime JavaScript values for the initial-content computation

The declared type of the value prop is null-or-string, but in JSON mode
the host may hand the component a decoded JSON object, and lines
112-117 explicitly test for an empty object.  The model below follows
the runtime semantics of lines 104-117 for all three shapes; method
calls on an object raise a TypeError, modelled as an exception. -/

inductive JsValue where
  | null : JsValue
  | str : String → JsValue
  | obj : List String → JsValue
deriving DecidableEq

/-- JavaScript truthiness of the value prop: null and the empty string
are falsy, every object is truthy. -/
def jsTruthy : JsValue → Bool
  | JsValue.null => false
  | JsValue.str s => !(s == "")
  | JsValue.obj _ => true

/-- JavaScript typeof-is-object test: true for null and objects. -/
def jsTypeofObject : JsValue → Bool
  | JsValue.null => true
  | JsValue.str _ => false
  | JsValue.obj _ => true

/-- Object.keys-is-empty test, reached only behind the object guard. -/
def jsKeysEmpty : JsValue → Bool
  | JsValue.obj keys => keys.isEmpty
  | _ => false

/-- Line 104: the value-match step; calling the string method match on
an object raises a TypeError. -/
def jsMatchLang (value : JsValue) : Except String (Option String) :=
  if jsTruthy value then
    match value with
    | JsValue.str s => Except.ok (Option.map (fun r => String.mk r.2.1) (findMatch s.data))
    | JsValue.obj _ => Except.error "TypeError: value.match is not a function"
    | JsValue.null => Except.ok none
  else Except.ok none

/-- Line 111: the value-replace step; calling the string method replace
on an object raises a TypeError. -/
def jsReplaceContent (value : JsValue) : Except String String :=
  if jsTruthy value then
    match value with
    | JsValue.str s => Except.ok (removeFirstMatch s)
    | JsValue.obj _ => Except.error "TypeError: value.replace is not a function"
    | JsValue.null => Except.ok ""
  else Except.ok ""

/-- Lines 104-117 at runtime: compute the initial editor content,
substituting the configured default value when the stripped content is
empty, or when the field is in JSON mode and the value is an empty
object.  The match step of line 104 runs first, so an object value
raises before the empty-object test is ever reached. -/
def jsInitContent (a : Attribute) (value : JsValue) : Except String String := do
  let _ ← jsMatchLang value
  let base ← jsReplaceContent value
  let dv := defaultValueOpt a
  if (base == "" && dv.isSome) ||
      (isJson a && jsTypeofObject value && jsTruthy value && jsKeysEmpty value
        && dv.isSome) then
    pure (dv.getD base)
  else
    pure base

/-! ### The debounced emitter

The component wires an rxjs pipeline (lines 148-157): a Subject, a
debounceTime of 1000 milliseconds, a subscription calling the host
change handler, and an unsubscribe in the effect cleanup.  The rxjs
implementation itself is an external dependency, so its documented
semantics are embedded here.

Modelled from the spec: section 4.2 of spec.md, the debounced emitter
contract for rxjs Subject and debounceTime, which are not part of this
repository's sources. -/

/-- A push onto the subject: its time in milliseconds and its value. -/
structure Push where
  t : Nat
  v : String
deriving DecidableEq

/-- Line 149: the debounce window in milliseconds. -/
def debounceWindowMs : Nat := 1000

/-- Has the subscription been torn down at or before the given fire
time? -/
def unsubAtOrBefore : Option Nat → Nat → Bool
  | none, _ => false
  | some u, f => u ≤ f

/-- Modelled from the spec: the pushes whose debounce timer fires.  A
push emits at its time plus the window unless a later push arrives
strictly inside its window (debounceTime restarts the timer) or the
subscription is torn down at or before the fire time. -/
def emitsAt : List Push → Option Nat → List Push
  | [], _ => []
  | p :: rest, unsub =>
    if rest.any (fun q => q.t < p.t + debounceWindowMs)
        || unsubAtOrBefore unsub (p.t + debounceWindowMs) then
      emitsAt rest unsub
    else
      p :: emitsAt rest unsub

/-- The change event passed to the host handler (lines 132-135): the
field name and the emitted value. -/
structure ChangeTarget where
  name : String
  value : String
deriving DecidableEq

/-- Lines 132-135 and 149: the events the host change handler receives,
one per emitted push. -/
def deliveredEvents (name : String) (ps : List Push) (unsub : Option Nat) :
    List ChangeTarget :=
  (emitsAt ps unsub).map (fun p => ChangeTarget.mk name p.v)

/-- Every push after the first falls strictly inside the window opened
by its predecessor. -/
def withinWindow : List Push → Bool
  | [] => true
  | [_] => true
  | a :: b :: rest => (b.t < a.t + debounceWindowMs) && withinWindow (b :: rest)

/-- The value of the last push of a burst. -/
def lastValue : List Push → String
  | [] => ""
  | [p] => p.v
  | _ :: rest => lastValue rest

/-! ### The claims -/

/-- C2: if no push ever occurs on the debounced stream, zero change
events are delivered to the host's onChange handler, whatever the
teardown time. -/
theorem C2_no_push_no_event (name : String) (unsub : Option Nat) :
    deliveredEvents name [] unsub = [] := rfl

/-- C4: on encoding an edited content string, the pushed value is the
content unchanged when JSON mode is active or a configured language is
set (truthy), and otherwise the content prefixed with the marker built
from the current language state. -/
theorem C4_encode_rule (a : Attribute) (language c : String) :
    (handleChange a language (some c)).2 =
      if isJson a || truthy (languageFromOptions a) then c
      else "__" ++ language ++ "__;" ++ c := by
  by_cases h : c = ""
  · subst h; simp [handleChange]
  · simp [handleChange, h]

/-- C6: the initial language is resolved in priority order: a truthy
configured language first, then the language decoded from the stored
value, then the JSON-mode default json, then the global default
javascript. -/
theorem C6_language_priority (a : Attribute) (value : Option String) :
    initLanguage a value =
      if truthy (languageFromOptions a) then (languageFromOptions a).getD ""
      else
        match languageFromValue value with
        | some l => l
        | none => if isJson a then "json" else "javascript" := by
  unfold initLanguage
  cases hlo : languageFromOptions a with
  | none =>
    simp only [truthy, jsOrString, if_neg]
    cases hlv : languageFromValue value with
    | none => simp [jsOrString]
    | some l =>
      have := languageFromValue_ne_empty value l hlv
      simp [jsOrString, this]
  | some s =>
    by_cases hs : s = ""
    · subst hs
      simp only [truthy]
      cases hlv : languageFromValue value with
      | none => simp [jsOrString]
      | some l =>
        have := languageFromValue_ne_empty value l hlv
        simp [jsOrString, this]
    · simp [truthy, jsOrString, hs]

/-- C9: toggling the full-screen flag twice returns the state, the
chosen layout container and the editor height to their original values,
and a single toggle never changes the editor content or the language
state. -/
theorem C9_toggle_involution (s : EditorState) :
    toggleFullScreen (toggleFullScreen s) = s ∧
    styledDiv (toggleFullScreen (toggleFullScreen s)) = styledDiv s ∧
    editorHeight (toggleFullScreen (toggleFullScreen s)) = editorHeight s ∧
    (toggleFullScreen s).editorValue = s.editorValue ∧
    (toggleFullScreen s).language = s.language := by
  have h : toggleFullScreen (toggleFullScreen s) = s := by
    cases s
    simp [toggleFullScreen]
  exact ⟨h, by rw [h], by rw [h], rfl, rfl⟩

/-- C7: evaluating the initial-content computation on a JSON-mode field
whose stored value is the empty JSON object, with a configured default
value, raises a TypeError at the match step of line 104 instead of
substituting the default value as the empty-object test of lines
112-117 intends. -/
theorem C7_object_value_throws :
    jsInitContent
      (Attribute.mk "plugin::code-editor.code-editor-json"
        (some (FieldOptions.mk none (some "\x7b\x22a\x22:1\x7d"))))
      (JsValue.obj []) =
      Except.error "TypeError: value.match is not a function" := rfl

/-- C1 counterexample: for the enumerated language css and the content
x__;y, encoding in plain mode and decoding does not return the pair
back: the greedy group absorbs part of the content, yielding the
language css__;x and the content y. -/
theorem C1_cex :
    (handleChange (Attribute.mk "plugin::code-editor.code-editor" none) "css"
        (some "x__;y")).2 = "__css__;x__;y" ∧
    "css" ∈ languages ∧
    decodePair (some "__css__;x__;y") = (some "css__;x", "y") ∧
    ((some "css__;x" : Option String), ("y" : String))
      ≠ ((some "css" : Option String), ("x__;y" : String)) := by decide

/-- C1 (amended): for every content string that nowhere contains the
marker tail (two underscores and a semicolon) and every language of the
enumerated set, encoding and then decoding returns the language and the
content exactly; when JSON mode or a truthy configured language is
active, decoding the encoded value yields no language and the content
unchanged. -/
theorem C1_round_trip (a : Attribute) (l c : String)
    (hl : l ∈ languages) (hc : containsSeq markerEnd c.data = false) :
    decodePair (some ((handleChange a l (some c)).2)) =
      if isJson a || truthy (languageFromOptions a)
      then ((none : Option String), c) else (some l, c) := by
  obtain ⟨hne, hnl⟩ := languages_props l hl
  have hvts : (handleChange a l (some c)).2 =
      if isJson a || truthy (languageFromOptions a) then c
      else "__" ++ l ++ "__;" ++ c := by
    by_cases h : c = ""
    · subst h; simp [handleChange]
    · simp [handleChange, h]
  rw [hvts]
  by_cases hcond : (isJson a || truthy (languageFromOptions a)) = true
  · rw [if_pos hcond, if_pos hcond]
    exact decodePair_plain c hc
  · rw [if_neg hcond, if_neg hcond]
    exact decodePair_encoded l c hne hnl hc

/-- C1 witness: the round trip at a plain field, the language css and
the content hello. -/
theorem C1_round_trip_witness :
    decodePair (some ((handleChange
        (Attribute.mk "plugin::code-editor.code-editor" none) "css"
        (some "hello")).2)) =
      if isJson (Attribute.mk "plugin::code-editor.code-editor" none)
          || truthy (languageFromOptions
            (Attribute.mk "plugin::code-editor.code-editor" none))
      then ((none : Option String), ("hello" : String))
      else (some "css", "hello") :=
  C1_round_trip (Attribute.mk "plugin::code-editor.code-editor" none)
    "css" "hello" (by decide) (by decide)

/-- C3 counterexample: the stored value a__b__;c is not of the anchored
marker form, yet decoding does not yield the null language with the
value unchanged: the unanchored regex matches in the middle, yielding
the language b and the content ac. -/
theorem C3_cex :
    decodePair (some "a__b__;c") = (some "b", "ac") ∧
    (∀ lang rest : String, "a__b__;c" ≠ "__" ++ lang ++ "__;" ++ rest) ∧
    ((some "b" : Option String), ("ac" : String))
      ≠ ((none : Option String), ("a__b__;c" : String)) := by
  refine ⟨by decide, ?_, by decide⟩
  intro lang rest h
  have hd := congrArg String.data h
  rw [encoded_data lang rest] at hd
  have hlit : ("a__b__;c" : String).data
      = 'a' :: ['_', '_', 'b', '_', '_', ';', 'c'] := rfl
  rw [hlit] at hd
  injection hd with h1 h2
  exact absurd h1 (by decide)

/-- C3 (amended): whenever the unanchored leftmost-greedy regex matches
anywhere in the stored string, decoding yields the captured group as
the language and the value with the first match removed as the content,
the group being nonempty and free of line terminators; when the regex
does not match, decoding yields the null language and the value, or the
empty string for a null value.  In particular the stored value
__python__;print(1) decodes to python with content print(1), and a null
stored value decodes to the null language with empty content. -/
theorem C3_decode_contract :
    (∀ (s : String) (pre g post : List Char),
        findMatch s.data = some (pre, g, post) →
          s.data = pre ++ ('_' :: '_' :: (g ++ (markerEnd ++ post))) ∧
          g ≠ [] ∧ g.all notLineTerm = true ∧
          languageFromValue (some s) = some (String.mk g) ∧
          contentFromValue (some s) = String.mk (pre ++ post)) ∧
    (∀ s : String, findMatch s.data = none → decodePair (some s) = (none, s)) ∧
    decodePair (some "__python__;print(1)") = (some "python", "print(1)") ∧
    decodePair none = ((none : Option String), ("" : String)) := by
  refine ⟨?_, ?_, by decide, rfl⟩
  · intro s pre g post hf
    obtain ⟨hsplit, hne, hall⟩ := findMatch_sound s.data pre g post hf
    have hs : s ≠ "" := by
      intro h0
      subst h0
      have hx : ([] : List Char)
          = pre ++ ('_' :: '_' :: (g ++ (markerEnd ++ post))) := hsplit
      cases pre <;> simp at hx
    refine ⟨hsplit, hne, hall, ?_, ?_⟩
    · simp only [languageFromValue, if_neg hs, hf, Option.map]
    · simp only [contentFromValue, if_neg hs, removeFirstMatch, hf]
  · intro s hf
    by_cases h : s = ""
    · subst h; rfl
    · simp only [decodePair, languageFromValue, contentFromValue,
        removeFirstMatch, if_neg h, hf]
      rfl

/-- C3 witness: the matched branch of the decode contract at the stored
value __x__;y. -/
theorem C3_decode_contract_witness :
    ("__x__;y" : String).data
      = [] ++ ('_' :: '_' :: (['x'] ++ (markerEnd ++ ['y']))) ∧
    (['x'] : List Char) ≠ [] ∧ (['x'] : List Char).all notLineTerm = true ∧
    languageFromValue (some "__x__;y") = some (String.mk ['x']) ∧
    contentFromValue (some "__x__;y") = String.mk ([] ++ ['y']) :=
  C3_decode_contract.1 "__x__;y" [] ['x'] ['y'] (by decide)

/-- C10 counterexample: the stored value with the shape of the marker
form on the language a and the remainder __b__;c does not resolve the
initial language to a: the greedy group extends across the remainder,
resolving to a__;__b instead, although a is not an enumerated
language. -/
theorem C10_cex :
    ("__a__;__b__;c" : String) = "__" ++ "a" ++ "__;" ++ "__b__;c" ∧
    "a" ∉ languages ∧
    initLanguage (Attribute.mk "plugin::code-editor.code-editor" none)
      (some "__a__;__b__;c") = "a__;__b" ∧
    ("a__;__b" : String) ≠ "a" := by decide

/-- C10 (amended): decoding validates nothing against the enumerated
language set: for every nonempty language text without line terminators
and not in the enumerated set, and every remainder in which the marker
tail nowhere occurs, a stored value carrying that embedded language
resolves the initial language to exactly that text whenever no truthy
configured language overrides it. -/
theorem C10_no_validation (a : Attribute) (x rest : String)
    (h1 : x.data ≠ []) (h2 : x.data.all notLineTerm = true)
    (h3 : containsSeq markerEnd rest.data = false)
    (h4 : truthy (languageFromOptions a) = false)
    (_h5 : x ∉ languages) :
    initLanguage a (some ("__" ++ x ++ "__;" ++ rest)) = x := by
  have hfm : findMatch ("__" ++ x ++ "__;" ++ rest).data
      = some ([], x.data, rest.data) := by
    rw [encoded_data]
    exact findMatch_encoded x.data rest.data h1 h2 h3
  have hnz : ("__" ++ x ++ "__;" ++ rest) ≠ "" := by
    intro h
    have := congrArg String.data h
    rw [encoded_data] at this
    simp at this
  have hlv : languageFromValue (some ("__" ++ x ++ "__;" ++ rest)) = some x := by
    simp only [languageFromValue, if_neg hnz, hfm, Option.map]
  have hx : x ≠ "" := fun h0 => h1 ((data_nil_iff x).mpr h0)
  unfold initLanguage
  cases hlo : languageFromOptions a with
  | none => simp [jsOrString, hlv, hx]
  | some s =>
    rw [hlo] at h4
    have hs : s = "" := by
      simp [truthy] at h4
      exact h4
    subst hs
    simp [jsOrString, hlv, hx]

/-- C10 witness: a field with no options and the stored value carrying
the embedded non-enumerated language foo resolves to foo. -/
theorem C10_no_validation_witness :
    initLanguage (Attribute.mk "field" none)
      (some ("__" ++ "foo" ++ "__;" ++ "bar")) = "foo" :=
  C10_no_validation (Attribute.mk "field" none) "foo" "bar"
    (by decide) (by decide) (by decide) (by decide) (by decide)

/-- C5: for every nonempty burst of pushes in which each push lands
strictly inside the window opened by its predecessor, and no teardown,
exactly one change event is delivered to the host's change handler, and
it carries the value of the last push. -/
theorem C5_single_emission (name : String) (ps : List Push)
    (hne : ps ≠ []) (hw : withinWindow ps = true) :
    deliveredEvents name ps none = [ChangeTarget.mk name (lastValue ps)] := by
  induction ps with
  | nil => exact absurd rfl hne
  | cons p rest ih =>
    cases rest with
    | nil =>
      simp [deliveredEvents, emitsAt, unsubAtOrBefore, lastValue]
    | cons q rest' =>
      simp only [withinWindow, Bool.and_eq_true, decide_eq_true_eq] at hw
      obtain ⟨hq, hw'⟩ := hw
      have hcond : ((q :: rest').any (fun r => r.t < p.t + debounceWindowMs)
          || unsubAtOrBefore none (p.t + debounceWindowMs)) = true := by
        simp [List.any_cons, unsubAtOrBefore, hq]
      have hcan : emitsAt (p :: q :: rest') none = emitsAt (q :: rest') none := by
        rw [emitsAt, if_pos hcond]
      have hlast : lastValue (p :: q :: rest') = lastValue (q :: rest') := rfl
      rw [deliveredEvents, hcan, hlast]
      exact ih (by simp) hw'

/-- C5 witness: three pushes at 0, 400 and 900 milliseconds deliver one
event carrying the last value. -/
theorem C5_single_emission_witness :
    deliveredEvents "field" [Push.mk 0 "a", Push.mk 400 "b", Push.mk 900 "c"]
      none = [ChangeTarget.mk "field" (lastValue
        [Push.mk 0 "a", Push.mk 400 "b", Push.mk 900 "c"])] :=
  C5_single_emission "field" [Push.mk 0 "a", Push.mk 400 "b", Push.mk 900 "c"]
    (by decide) (by decide)

/-- C8: after teardown closes the subscription, no change event is ever
delivered at or after the teardown time: every emitted push fired
strictly before the teardown, so a push made less than the window
before teardown emits nothing. -/
theorem C8_no_event_after_teardown (ps : List Push) (u : Nat) (p : Push)
    (hmem : p ∈ emitsAt ps (some u)) : p.t + debounceWindowMs < u := by
  induction ps with
  | nil => simp [emitsAt] at hmem
  | cons q rest ih =>
    rw [emitsAt] at hmem
    cases hcb : (rest.any (fun r => r.t < q.t + debounceWindowMs)
        || unsubAtOrBefore (some u) (q.t + debounceWindowMs)) with
    | true =>
      rw [if_pos hcb] at hmem
      exact ih hmem
    | false =>
      rw [if_neg (by simp [hcb])] at hmem
      rcases List.mem_cons.mp hmem with heq | h
      · subst heq
        have hB : unsubAtOrBefore (some u) (p.t + debounceWindowMs) = false :=
          (Bool.or_eq_false_iff.mp hcb).2
        simp only [unsubAtOrBefore, decide_eq_false_iff_not] at hB
        omega
      · exact ih h

/-- C8 witness: with a single push at time 0 and teardown at 2000
milliseconds, the emitted push fired strictly before the teardown. -/
theorem C8_no_event_after_teardown_witness :
    (Push.mk 0 "a").t + debounceWindowMs < 2000 :=
  C8_no_event_after_teardown [Push.mk 0 "a"] 2000 (Push.mk 0 "a") (by decide)

end CodeEditor
